import Mathlib

/-!
Verification of the AptaMotif core: the k-mer motif miner and redundancy
reducer of `src/motif_analysis.py`, and the statistical enrichment engine of
`src/statistics_module.py`.

Python strings are modelled as `List Char`, Python sets of sequence
identifiers as `Finset ι` for an arbitrary identifier type `ι` with decidable
equality, Python dicts (which preserve insertion order) as association lists
`List (key × value)` with pairwise-distinct keys, and Python floats as exact
rationals `ℚ`.  `np.inf` is modelled as `⊤ : WithTop ℚ`.
-/

set_option linter.unusedVariables false
set_option linter.unusedSectionVars false

variable {ι : Type} [DecidableEq ι]

/-- A motif (or a sequence) is a string over `Char`. -/
abbrev Motif := List Char

/-- A motif-to-support-set map, as produced by `MotifAnalyzer.find_motifs`.
Python dicts preserve insertion order, so the map is an association list. -/
abbrev MotifMap (ι : Type) [DecidableEq ι] := List (Motif × Finset ι)

/-- The valid DNA alphabet, the string literal written in
`MotifAnalyzer.extract_kmers` as the Python string ATCG. -/
def validBases : List Char := ['A', 'T', 'C', 'G']

/-- `MotifAnalyzer.extract_kmers` (src/motif_analysis.py lines 37-58): the set
of windows `sequence[i : i+k]` for `i` in `range(len(sequence) - k + 1)` all of
whose characters are valid DNA bases.  `List.range (s.length + 1 - k)` equals
Python's `range(len(s) - k + 1)` for every `k` because truncated subtraction
produces the same (possibly empty) index range. -/
def extract_kmers (s : List Char) (k : ℕ) : Finset Motif :=
  ((List.range (s.length + 1 - k)).filterMap fun i =>
    let kmer := (s.drop i).take k
    if kmer.all fun c => decide (c ∈ validBases) then some kmer else none).toFinset

/-- Python's `range(min_length, max_length + 1)` of candidate k-mer lengths in
`MotifAnalyzer.find_motifs`. -/
def kRange (minL maxL : ℕ) : List ℕ :=
  (List.range (maxL + 1 - minL)).map (minL + ·)

/-- The key set of the `motif_occurrences` dict accumulated by
`MotifAnalyzer.find_motifs` (lines 69-79): every k-mer extracted from some
sequence for some length in the range. -/
def motif_occurrences_keys (seqs : List (ι × List Char)) (minL maxL : ℕ) :
    Finset Motif :=
  (kRange minL maxL).toFinset.biUnion fun k =>
    seqs.toFinset.biUnion fun p => extract_kmers p.2 k

/-- The support set accumulated for a motif by `MotifAnalyzer.find_motifs`:
the identifiers of the sequences from which the motif was extracted as a
k-mer for some length in the range. -/
def motif_occurrences_support (seqs : List (ι × List Char)) (minL maxL : ℕ)
    (w : Motif) : Finset ι :=
  ((seqs.filter fun p =>
    (kRange minL maxL).any fun k => decide (w ∈ extract_kmers p.2 k)).map
      Prod.fst).toFinset

/-- The key set of `filtered_motifs` in `MotifAnalyzer.find_motifs`
(lines 82-86): motifs whose support set has at least `min_occurrences`
elements. -/
def filtered_motifs_keys (seqs : List (ι × List Char)) (minL maxL minOcc : ℕ) :
    Finset Motif :=
  (motif_occurrences_keys seqs minL maxL).filter fun w =>
    minOcc ≤ (motif_occurrences_support seqs minL maxL w).card

/-- The support set in the words of the spec: the set of sequence identifiers
whose sequence contains `w` as a contiguous substring. -/
def supportingSet (seqs : List (ι × List Char)) (w : Motif) : Finset ι :=
  ((seqs.filter fun p => decide (w <:+: p.2)).map Prod.fst).toFinset

/-- The redundancy check of `MotifAnalyzer._remove_redundant_motifs`
(lines 130-137): the candidate is a contiguous substring of an already
accepted motif with exactly equal support set. -/
def isRedundantWith (m : Motif × Finset ι) (acc : MotifMap ι) : Bool :=
  acc.any fun e => decide (m.1 <:+: e.1) && decide (m.2 = e.2)

/-- The accumulation loop of `MotifAnalyzer._remove_redundant_motifs`
(lines 123-140): candidates are processed in order; a candidate redundant with
the already accepted collection is dropped, otherwise it is appended. -/
def acceptLoop : MotifMap ι → MotifMap ι → MotifMap ι
  | acc, [] => acc
  | acc, m :: rest =>
    if isRedundantWith m acc then acceptLoop acc rest
    else acceptLoop (acc ++ [m]) rest

/-- The list of distinct motif lengths sorted in decreasing order,
`sorted(motifs_by_length.keys(), reverse=True)` in
`MotifAnalyzer._remove_redundant_motifs` (line 126).  (Python sorts the
first-occurrence-ordered key list; since the sorted list of a duplicate-free
set of naturals is unique, `dedup` followed by a sort is the same list.) -/
def lengthsDesc (l : MotifMap ι) : List ℕ :=
  List.insertionSort (· ≥ ·) ((l.map fun p => p.1.length).dedup)

/-- The group `motifs_by_length[k]`: the entries of the input map whose motif
has length `k`, in map iteration order (line 119-121). -/
def lengthGroup (l : MotifMap ι) (k : ℕ) : MotifMap ι :=
  l.filter fun p => decide (p.1.length = k)

/-- The candidate traversal order of `_remove_redundant_motifs`: length groups
from longest to shortest, each group in the iteration order of the input
container. -/
def processOrder (l : MotifMap ι) : MotifMap ι :=
  (lengthsDesc l).flatMap (lengthGroup l)

/-- `MotifAnalyzer._remove_redundant_motifs` (lines 113-142). -/
def remove_redundant_motifs (l : MotifMap ι) : MotifMap ι :=
  acceptLoop [] (processOrder l)

/-- Lexicographic order on equal-or-different-length strings, the order Python
uses when sorting strings; used only to state the spec's traversal order. -/
def lexLE : List Char → List Char → Bool
  | [], _ => true
  | _ :: _, [] => false
  | a :: as, b :: bs => if a < b then true else if a = b then lexLE as bs else false

/-- Modelled from the spec: the traversal order the spec prescribes for the
redundancy reducer, an explicit deterministic sort by length descending then
motif string ascending.  This definition follows the spec's words; the code's
actual traversal order is `processOrder`. -/
def specOrder (l : MotifMap ι) : MotifMap ι :=
  List.insertionSort
    (fun a b => (b.1.length < a.1.length ∨ (a.1.length = b.1.length ∧ lexLE a.1 b.1 = true))) l

/-- Modelled from the spec: the redundancy reducer as the spec describes it,
with candidates traversed after an explicit deterministic sort by length
descending then motif string ascending. -/
def remove_redundant_motifs_lex (l : MotifMap ι) : MotifMap ι :=
  acceptLoop [] (specOrder l)

/-- `StatisticalAnalyzer.calculate_motif_probability`
(src/statistics_module.py lines 38-53): `self.base_prob ** motif_length` with
`base_prob = 0.25`. -/
def calculate_motif_probability (k : ℕ) : ℚ :=
  (0.25 : ℚ) ^ k

/-- `StatisticalAnalyzer.calculate_positions_per_sequence` (lines 55-68):
`max(1, self.random_region_length - motif_length + 1)` over the integers. -/
def calculate_positions_per_sequence (R : ℤ) (k : ℕ) : ℤ :=
  max 1 (R - k + 1)

/-- The per-sequence hit probability computed inside
`StatisticalAnalyzer.binomial_test` (line 96):
`1 - (1 - p_motif) ** n_positions`. -/
def p_in_sequence (R : ℤ) (k : ℕ) : ℚ :=
  1 - (1 - calculate_motif_probability k) ^ calculate_positions_per_sequence R k

/-- Modelled from the spec: `scipy.stats.binom.sf x n p` (library code, not in
the repository) is the binomial survival function, the probability that a
`Binomial(n, p)` variable is strictly greater than `x`. -/
def binomSf (x : ℤ) (n : ℕ) (p : ℚ) : ℚ :=
  ∑ j ∈ Finset.range (n + 1),
    if x < (j : ℤ) then (n.choose j : ℚ) * p ^ j * (1 - p) ^ (n - j) else 0

/-- `StatisticalAnalyzer.binomial_test` (lines 70-102):
`binom.sf(observed_count - 1, self.n_sequences, p_in_sequence)` where `N` is
the number of sequences and `R` the expected random-region length. -/
def binomial_test (N : ℕ) (R : ℤ) (k : ℕ) (observed_count : ℕ) : ℚ :=
  binomSf ((observed_count : ℤ) - 1) N (p_in_sequence R k)

/-- The one-sided exceedance probability in the words of the spec:
`P(X ≥ c)` for `X ~ Binomial(n, p)`. -/
def exceedanceProbability (n : ℕ) (p : ℚ) (c : ℕ) : ℚ :=
  ∑ j ∈ Finset.Icc c n, (n.choose j : ℚ) * p ^ j * (1 - p) ^ (n - j)

/-- The expected occurrence count computed in
`StatisticalAnalyzer.calculate_enrichment` (line 139): `p_in_sequence * N`. -/
def expected_count (N : ℕ) (R : ℤ) (k : ℕ) : ℚ :=
  p_in_sequence R k * N

/-- The fold enrichment of `StatisticalAnalyzer.calculate_enrichment`
(lines 143-146): `observed / expected` when `expected > 0`, `np.inf`
(modelled as `⊤`) otherwise. -/
def fold_enrichment (observed : ℕ) (expected : ℚ) : WithTop ℚ :=
  if 0 < expected then ((observed / expected : ℚ) : WithTop ℚ) else ⊤

/-- The observed count of `StatisticalAnalyzer.permutation_test` (line 198):
the number of pool members that contain the motif. -/
def count_hits (motif : Motif) (pool : List (List Char)) : ℕ :=
  (pool.filter fun s => decide (motif <:+: s)).length

/-- `StatisticalAnalyzer.permutation_test` (lines 180-220).  The
`np.random.shuffle` trials are an input: `shuffles` holds, for each trial, the
pool of per-sequence shuffled strings; the empirical p-value is
`(number of trials whose shuffled hit count reaches the observed count, plus
one) / (number of trials, plus one)`. -/
def permutation_test (seqs : List (ι × List Char)) (motif : Motif)
    (shuffles : List (List (List Char))) : ℚ :=
  let observed := count_hits motif (seqs.map Prod.snd)
  let null_counts := shuffles.map fun pool => count_hits motif pool
  (((null_counts.filter fun c => decide (observed ≤ c)).length : ℚ) + 1) /
    ((shuffles.length : ℚ) + 1)

/-- The running minimum over suffixes: entry `i` of the result is the minimum
of entries `i, i+1, ...` of the input. -/
def runningMinRight : List ℚ → List ℚ
  | [] => []
  | a :: t =>
    match runningMinRight t with
    | [] => [a]
    | b :: t' => min a b :: b :: t'

/-- Modelled from the spec: the Benjamini-Hochberg step-up correction
performed by `statsmodels.stats.multitest.multipletests(..., method='fdr_bh')`
(library code, not in the repository), in the words of spec section 4.4: sort
the p-values ascending retaining original indices, scale the i-th smallest of
m by `m / i` capping at 1, enforce monotonicity by a running minimum from the
largest rank down, and map back to the original order.  (The adjusted value of
a p-value is independent of how ties are ranked, because tied raw p-values
receive equal adjusted values after the running-minimum pass.) -/
def bh_adjust (ps : List ℚ) : List ℚ :=
  let m := ps.length
  let sorted := List.insertionSort (fun a b => a.2 ≤ b.2) ps.enum
  let ranked := sorted.enum.map fun ir =>
    (ir.2.1, min 1 (ir.2.2 * (m : ℚ) / ((ir.1 : ℚ) + 1)))
  let adj := runningMinRight (ranked.map Prod.snd)
  let backMap := (ranked.map Prod.fst).zip adj
  (List.range m).map fun j =>
    ((backMap.find? fun q => decide (q.1 = j)).map Prod.snd).getD 1

/-- The p-value and FDR columns produced by
`StatisticalAnalyzer.calculate_enrichment` (lines 122-161) for a table of
(motif, length, observed count) rows, before the final sort. -/
def calculate_enrichment_rows (N : ℕ) (R : ℤ) (rows : List (Motif × ℕ × ℕ)) :
    List (Motif × ℚ) :=
  let ps := rows.map fun r => binomial_test N R r.2.1 r.2.2
  (rows.map Prod.fst).zip (bh_adjust ps)

/-- A row of the analyzer's motif DataFrame.  The caller's table carries the
`Motif`, `Length` and `Count` columns; the statistical columns start out
absent (`none`) and are added by the analyzer's methods. -/
structure ERow where
  motif : Motif
  len : ℕ
  count : ℕ
  pvalue : Option ℚ := none
  fdr : Option ℚ := none
  pvalueGC : Option ℚ := none
deriving DecidableEq

/-- The state of a `StatisticalAnalyzer` together with the caller's
DataFrame object: `caller_df` is the DataFrame the caller passed to
`__init__`, `motif_df` is the analyzer's own table.  Heap mutation performed
by the Python methods is modelled by explicit state passing; distinct fields
are distinct objects. -/
structure AnalyzerHeap (ι : Type) [DecidableEq ι] where
  caller_df : List ERow
  motif_df : List ERow
  sequences : List (ι × List Char)
  random_region_length : ℤ

/-- `StatisticalAnalyzer.__init__` (lines 17-36): the analyzer stores
`motif_df.copy()`, a fresh object holding the same rows, so `motif_df` starts
equal to, but is a different object from, `caller_df`. -/
def statisticalAnalyzer_init (motif_df : List ERow)
    (sequences : List (ι × List Char)) (R : ℤ) : AnalyzerHeap ι :=
  { caller_df := motif_df
    motif_df := motif_df
    sequences := sequences
    random_region_length := R }

/-- `StatisticalAnalyzer.calculate_enrichment` (lines 104-178) acting on the
heap: computes the p-value and FDR columns of `self.motif_df`, re-sorts the
table by FDR, and reassigns `self.motif_df`; the caller's object is never
touched.  (pandas `sort_values('FDR')` uses an unstable quicksort whose tie
order is unspecified; it is modelled here by an insertion sort on the FDR key
only - the frame property does not depend on the tie order.) -/
def calculate_enrichment_heap (st : AnalyzerHeap ι) : AnalyzerHeap ι :=
  let N := st.sequences.length
  let ps := st.motif_df.map fun r => binomial_test N st.random_region_length r.len r.count
  let fdrs := bh_adjust ps
  let rows := (st.motif_df.zip (ps.zip fdrs)).map fun rq =>
    { rq.1 with pvalue := some rq.2.1, fdr := some rq.2.2 }
  { st with motif_df := List.insertionSort (fun a b => a.fdr.getD 1 ≤ b.fdr.getD 1) rows }

/-- `StatisticalAnalyzer.calculate_gc_content` (lines 222-239). -/
def calculate_gc_content (s : List Char) : ℚ :=
  if s.length = 0 then 0 else ((s.count 'G' + s.count 'C' : ℕ) : ℚ) / (s.length : ℚ)

/-- `StatisticalAnalyzer.adjust_for_gc_bias` (lines 241-292) acting on the
heap: recomputes per-motif probabilities from the average GC content and
writes the GC-adjusted p-value column of `self.motif_df`; the caller's object
is never touched. -/
def adjust_for_gc_bias_heap (st : AnalyzerHeap ι) : AnalyzerHeap ι :=
  let gcs := st.sequences.map fun p => calculate_gc_content p.2
  let avg_gc := gcs.sum / (gcs.length : ℚ)
  let p_gc := avg_gc / 2
  let p_at := (1 - avg_gc) / 2
  let rows := st.motif_df.map fun r =>
    let p_motif := (r.motif.map fun c => if c = 'G' ∨ c = 'C' then p_gc else p_at).prod
    let n_positions := calculate_positions_per_sequence st.random_region_length r.motif.length
    { r with
      pvalueGC := some (binomSf ((r.count : ℤ) - 1) st.sequences.length
        (1 - (1 - p_motif) ^ n_positions)) }
  { st with motif_df := rows }

/-- The three-sequence example pool of spec section 8, with numeric sequence
identifiers. -/
def exampleSequences : List (ℕ × List Char) :=
  [(1, ['A','A','A','A','A','C','C','C','C','C']),
   (2, ['A','A','A','A','A','C','C','C','C','C']),
   (3, ['G','G','G','G','G','T','T','T','T','T'])]

/-- A two-entry motif map containing a substring pair with different support
sets. -/
def exampleMapA : MotifMap ℕ := [(['A'], {1}), (['A', 'B'], {1, 2})]

/-- A one-entry motif map. -/
def exampleMapB : MotifMap ℕ := [(['A'], {1})]

/-- A motif map whose container order within its single length group is not
lexicographic. -/
def exampleMapC : MotifMap ℕ := [(['C'], {0}), (['A'], {1})]

/-- The same motif map as `exampleMapC` in the other container order. -/
def exampleMapD : MotifMap ℕ := [(['A'], {1}), (['C'], {0})]

lemma bool_eq_of_iff {a b : Bool} (h : a = true ↔ b = true) : a = b := by
  cases a <;> cases b <;> simp_all

lemma window_substring (s : List Char) (i k : ℕ) : (s.drop i).take k <:+: s := by
  refine ⟨s.take i, (s.drop i).drop k, ?_⟩
  rw [List.append_assoc, List.take_append_drop, List.take_append_drop]

lemma mem_extract_kmers {s : List Char} {k : ℕ} {w : Motif} :
    w ∈ extract_kmers s k ↔
      w.length = k ∧ (∀ c ∈ w, c ∈ validBases) ∧ w <:+: s := by
  simp only [extract_kmers, List.mem_toFinset, List.mem_filterMap, List.mem_range]
  constructor
  · rintro ⟨i, hi, hw⟩
    split_ifs at hw with hv
    · obtain rfl : (s.drop i).take k = w := Option.some_inj.mp hw
      have hlen : ((s.drop i).take k).length = k := by
        rw [List.length_take, List.length_drop]; omega
      refine ⟨hlen, ?_, window_substring s i k⟩
      intro c hc
      simpa using List.all_eq_true.mp hv c hc
  · rintro ⟨hk, hval, t, u, hs⟩
    refine ⟨t.length, ?_, ?_⟩
    · have : s.length = t.length + w.length + u.length := by simp [← hs]; omega
      omega
    · have hwin : (s.drop t.length).take k = w := by
        rw [← hs, List.append_assoc, List.drop_left, ← hk, List.take_left]
      rw [hwin, if_pos]
      exact List.all_eq_true.mpr fun c hc => by simpa using hval c hc

lemma mem_kRange {minL maxL k : ℕ} : k ∈ kRange minL maxL ↔ minL ≤ k ∧ k ≤ maxL := by
  simp only [kRange, List.mem_map, List.mem_range]
  constructor
  · rintro ⟨j, hj, rfl⟩; omega
  · intro h; exact ⟨k - minL, by omega, by omega⟩

lemma mem_motif_occurrences_keys {seqs : List (ι × List Char)} {minL maxL : ℕ}
    {w : Motif} :
    w ∈ motif_occurrences_keys seqs minL maxL ↔
      (minL ≤ w.length ∧ w.length ≤ maxL) ∧ (∀ c ∈ w, c ∈ validBases) ∧
        ∃ p ∈ seqs, w <:+: p.2 := by
  simp only [motif_occurrences_keys, Finset.mem_biUnion, List.mem_toFinset, mem_kRange,
    mem_extract_kmers]
  constructor
  · rintro ⟨k, hk, p, hp, rfl, hval, hinf⟩
    exact ⟨hk, hval, p, hp, hinf⟩
  · rintro ⟨hk, hval, p, hp, hinf⟩
    exact ⟨w.length, hk, p, hp, rfl, hval, hinf⟩

lemma motif_occurrences_support_eq {seqs : List (ι × List Char)} {minL maxL : ℕ}
    {w : Motif} (hlen : minL ≤ w.length ∧ w.length ≤ maxL)
    (hval : ∀ c ∈ w, c ∈ validBases) :
    motif_occurrences_support seqs minL maxL w = supportingSet seqs w := by
  ext x
  simp only [motif_occurrences_support, supportingSet, List.mem_toFinset, List.mem_map,
    List.mem_filter, List.any_eq_true, decide_eq_true_eq, mem_extract_kmers, mem_kRange]
  constructor
  · rintro ⟨p, ⟨hp, k, hk, hwk, hv, hinf⟩, hx⟩
    exact ⟨p, ⟨hp, hinf⟩, hx⟩
  · rintro ⟨p, ⟨hp, hinf⟩, hx⟩
    exact ⟨p, ⟨hp, ⟨w.length, ⟨hlen.1, hlen.2⟩, rfl, hval, hinf⟩⟩, hx⟩

/-- C1. K-mer mining correctness: the filtered mined map contains exactly the
substrings with length in `[min_length, max_length]`, all characters in the
valid alphabet, occurring in some sequence, whose support set (the set of
identifiers of the sequences containing the motif, counted once per sequence)
has size at least `min_occurrences`; and for every mined motif the accumulated
support set equals the set of sequence identifiers whose sequence contains the
motif.  Windows with invalid characters are skipped individually: a sequence
still contributes all its valid windows. -/
theorem find_motifs_mining_correct (seqs : List (ι × List Char))
    (minL maxL minOcc : ℕ) (w : Motif) :
    (w ∈ filtered_motifs_keys seqs minL maxL minOcc ↔
      minL ≤ w.length ∧ w.length ≤ maxL ∧ (∀ c ∈ w, c ∈ validBases) ∧
        (∃ p ∈ seqs, w <:+: p.2) ∧ minOcc ≤ (supportingSet seqs w).card) ∧
    (w ∈ motif_occurrences_keys seqs minL maxL →
      motif_occurrences_support seqs minL maxL w = supportingSet seqs w) := by
  constructor
  · rw [filtered_motifs_keys, Finset.mem_filter, mem_motif_occurrences_keys]
    constructor
    · rintro ⟨⟨⟨h1, h2⟩, hval, hocc⟩, hcard⟩
      rw [motif_occurrences_support_eq ⟨h1, h2⟩ hval] at hcard
      exact ⟨h1, h2, hval, hocc, hcard⟩
    · rintro ⟨h1, h2, hval, hocc, hcard⟩
      rw [← @motif_occurrences_support_eq ι _ seqs minL maxL w ⟨h1, h2⟩ hval] at hcard
      exact ⟨⟨⟨h1, h2⟩, hval, hocc⟩, hcard⟩
  · intro hw
    rw [mem_motif_occurrences_keys] at hw
    exact motif_occurrences_support_eq ⟨hw.1.1, hw.1.2⟩ hw.2.1

/-- Witness for C1, on the example pool of spec section 8. -/
theorem find_motifs_mining_correct_witness :
    (['A','A','A','A','A'] : Motif) ∈ filtered_motifs_keys exampleSequences 5 5 2 ∧
      motif_occurrences_support exampleSequences 5 5 ['A','A','A','A','A'] =
        supportingSet exampleSequences ['A','A','A','A','A'] :=
  ⟨(find_motifs_mining_correct exampleSequences 5 5 2 ['A','A','A','A','A']).1.mpr
      (by decide),
    (find_motifs_mining_correct exampleSequences 5 5 2 ['A','A','A','A','A']).2
      (by decide)⟩

lemma lengthGroup_length {l : MotifMap ι} {k : ℕ} {p : Motif × Finset ι}
    (hp : p ∈ lengthGroup l k) : p.1.length = k := by
  have := (List.mem_filter.mp hp).2
  simpa using this

lemma lengthsDesc_sorted (l : MotifMap ι) : List.Sorted (· ≥ ·) (lengthsDesc l) :=
  List.sorted_insertionSort _ _

lemma nodup_lengthsDesc (l : MotifMap ι) : (lengthsDesc l).Nodup :=
  (List.perm_insertionSort _ _).nodup_iff.mpr (List.nodup_dedup _)

lemma mem_lengthsDesc {l : MotifMap ι} {k : ℕ} :
    k ∈ lengthsDesc l ↔ k ∈ l.map fun p => p.1.length := by
  rw [lengthsDesc]
  constructor
  · intro h
    exact List.mem_dedup.mp ((List.perm_insertionSort _ _).mem_iff.mp h)
  · intro h
    exact (List.perm_insertionSort _ _).mem_iff.mpr (List.mem_dedup.mpr h)

lemma flatMapGroups_sorted (l : MotifMap ι) (ks : List ℕ)
    (h : List.Sorted (· ≥ ·) ks) :
    List.Pairwise (fun a b => b.1.length ≤ a.1.length) (ks.flatMap (lengthGroup l)) := by
  induction ks with
  | nil => simp
  | cons k ks ih =>
    rw [List.sorted_cons] at h
    rw [List.flatMap_cons, List.pairwise_append]
    refine ⟨?_, ih h.2, ?_⟩
    · exact List.pairwise_of_forall_mem_list fun a ha b hb => by
        rw [lengthGroup_length ha, lengthGroup_length hb]
    · intro a ha b hb
      obtain ⟨k', hk', hb'⟩ := List.mem_flatMap.mp hb
      rw [lengthGroup_length ha, lengthGroup_length hb']
      exact h.1 k' hk'

lemma processOrder_sorted (l : MotifMap ι) :
    List.Pairwise (fun a b => b.1.length ≤ a.1.length) (processOrder l) :=
  flatMapGroups_sorted l _ (lengthsDesc_sorted l)

lemma acceptLoop_sublist_decomp :
    ∀ (rest acc : MotifMap ι),
      ∃ t, acceptLoop acc rest = acc ++ t ∧ List.Sublist t rest := by
  intro rest
  induction rest with
  | nil =>
    intro acc
    exact ⟨[], by simp [acceptLoop], List.Sublist.refl []⟩
  | cons m rest ih =>
    intro acc
    by_cases hred : isRedundantWith m acc = true
    · obtain ⟨t, ht, hs⟩ := ih acc
      exact ⟨t, by simp [acceptLoop, hred, ht], hs.cons m⟩
    · obtain ⟨t, ht, hs⟩ := ih (acc ++ [m])
      refine ⟨m :: t, ?_, hs.cons₂ m⟩
      rw [show acceptLoop acc (m :: rest) = acceptLoop (acc ++ [m]) rest from by
        simp [acceptLoop, hred]]
      rw [ht, List.append_assoc, List.singleton_append]

lemma isRedundantWith_iff {m : Motif × Finset ι} {acc : MotifMap ι} :
    isRedundantWith m acc = true ↔ ∃ e ∈ acc, m.1 <:+: e.1 ∧ m.2 = e.2 := by
  simp [isRedundantWith, List.any_eq_true]

lemma acceptLoop_no_redundant_pair :
    ∀ (rest acc : MotifMap ι),
      List.Pairwise (fun a b => b.1.length ≤ a.1.length) rest →
      (∀ a ∈ acc, ∀ r ∈ rest, r.1.length ≤ a.1.length) →
      (∀ p ∈ acc, ∀ q ∈ acc, p.1 ≠ q.1 → p.1 <:+: q.1 → p.2 ≠ q.2) →
      ∀ p ∈ acceptLoop acc rest, ∀ q ∈ acceptLoop acc rest,
        p.1 ≠ q.1 → p.1 <:+: q.1 → p.2 ≠ q.2 := by
  intro rest
  induction rest with
  | nil =>
    intro acc _ _ hP
    simpa [acceptLoop] using hP
  | cons m rest ih =>
    intro acc hsort hge hP
    rw [List.pairwise_cons] at hsort
    by_cases hred : isRedundantWith m acc = true
    · rw [show acceptLoop acc (m :: rest) = acceptLoop acc rest from by
        simp [acceptLoop, hred]]
      exact ih acc hsort.2 (fun a ha r hr => hge a ha r (List.mem_cons_of_mem m hr)) hP
    · rw [show acceptLoop acc (m :: rest) = acceptLoop (acc ++ [m]) rest from by
        simp [acceptLoop, hred]]
      apply ih (acc ++ [m]) hsort.2
      · intro a ha r hr
        rcases List.mem_append.mp ha with ha | ha
        · exact hge a ha r (List.mem_cons_of_mem m hr)
        · obtain rfl : a = m := by simpa using ha
          exact hsort.1 r hr
      · intro p hp q hq hne hinf
        rcases List.mem_append.mp hp with hp1 | hp1
        · rcases List.mem_append.mp hq with hq1 | hq1
          · exact hP p hp1 q hq1 hne hinf
          · have hqm : q = m := by simpa using hq1
            have h1 : q.1.length ≤ p.1.length := by
              rw [hqm]
              exact hge p hp1 m (List.mem_cons_self m rest)
            have h2 : p.1.length ≤ q.1.length := List.IsInfix.length_le hinf
            exact absurd ( List.IsInfix.eq_of_length hinf (le_antisymm h2 h1)) hne
        · have hpm : p = m := by simpa using hp1
          rcases List.mem_append.mp hq with hq1 | hq1
          · intro heq
            apply hred
            rw [isRedundantWith_iff]
            exact ⟨q, hq1, hpm ▸ hinf, hpm ▸ heq⟩
          · have hqm : q = m := by simpa using hq1
            exact absurd (congrArg Prod.fst (hpm.trans hqm.symm)) hne

lemma remove_redundant_pairprop (l : MotifMap ι) :
    ∀ p ∈ remove_redundant_motifs l, ∀ q ∈ remove_redundant_motifs l,
      p.1 ≠ q.1 → p.1 <:+: q.1 → p.2 ≠ q.2 := by
  apply acceptLoop_no_redundant_pair (processOrder l) []
  · exact processOrder_sorted l
  · simp
  · simp

lemma lengthGroup_filter_ne {l : MotifMap ι} {k k' : ℕ} (hne : k' ≠ k) :
    lengthGroup l k' = lengthGroup (l.filter fun p => !decide (p.1.length = k)) k' := by
  rw [lengthGroup, lengthGroup, List.filter_filter]
  apply List.filter_congr
  intro p hp
  by_cases h : p.1.length = k'
  · simp [h, hne]
  · simp [h]

lemma flatMap_lengthGroup_filter {l : MotifMap ι} {k : ℕ} {ks : List ℕ}
    (hk : k ∉ ks) :
    ks.flatMap (lengthGroup l) =
      ks.flatMap (lengthGroup (l.filter fun p => !decide (p.1.length = k))) := by
  induction ks with
  | nil => rfl
  | cons k' ks ih =>
    have hne : k' ≠ k := fun h => hk (h ▸ List.mem_cons_self k' ks)
    rw [List.flatMap_cons, List.flatMap_cons, ih fun h => hk (List.mem_cons_of_mem k' h),
      lengthGroup_filter_ne hne]

lemma flatMap_groups_perm :
    ∀ (ks : List ℕ) (l : MotifMap ι), ks.Nodup → (∀ x ∈ l, x.1.length ∈ ks) →
      List.Perm (ks.flatMap (lengthGroup l)) l := by
  intro ks
  induction ks with
  | nil =>
    intro l _ hmem
    cases l with
    | nil => simp
    | cons p l => exact absurd (hmem p (List.mem_cons_self p l)) (by simp)
  | cons k ks ih =>
    intro l hnd hmem
    rw [List.nodup_cons] at hnd
    rw [List.flatMap_cons, flatMap_lengthGroup_filter hnd.1]
    have hsub : ∀ x ∈ l.filter fun p => !decide (p.1.length = k), x.1.length ∈ ks := by
      intro x hx
      have hx' := List.mem_filter.mp hx
      have hxk : x.1.length ≠ k := by simpa using hx'.2
      rcases List.mem_cons.mp (hmem x hx'.1) with h | h
      · exact absurd h hxk
      · exact h
    have hperm := ih (l.filter fun p => !decide (p.1.length = k)) hnd.2 hsub
    exact (List.Perm.append_left (lengthGroup l k) hperm).trans
      (List.filter_append_perm _ l)

lemma processOrder_perm (l : MotifMap ι) : List.Perm (processOrder l) l := by
  rw [processOrder]
  apply flatMap_groups_perm _ l (nodup_lengthsDesc l)
  intro x hx
  exact mem_lengthsDesc.mpr (List.mem_map.mpr ⟨x, hx, rfl⟩)

lemma remove_redundant_subset (l : MotifMap ι) :
    ∀ p ∈ remove_redundant_motifs l, p ∈ l := by
  intro p hp
  obtain ⟨t, ht, hsub⟩ := acceptLoop_sublist_decomp (processOrder l) []
  rw [remove_redundant_motifs, ht, List.nil_append] at hp
  exact (processOrder_perm l).subset (hsub.subset hp)

/-- C2. Post-condition of redundancy reduction: no two distinct motifs
retained by `_remove_redundant_motifs` are such that one is a contiguous
substring of the other while their support sets are exactly equal. -/
theorem remove_redundant_no_redundant_pair (l : MotifMap ι) :
    ∀ p ∈ remove_redundant_motifs l, ∀ q ∈ remove_redundant_motifs l,
      p.1 ≠ q.1 → p.1 <:+: q.1 → p.2 ≠ q.2 :=
  remove_redundant_pairprop l

/-- Witness for C2: on `exampleMapA` both a motif and a strict superstring of
it are retained, and their support sets indeed differ. -/
theorem remove_redundant_no_redundant_pair_witness :
    (['A'], ({1} : Finset ℕ)) ∈ remove_redundant_motifs exampleMapA ∧
      (['A', 'B'], ({1, 2} : Finset ℕ)) ∈ remove_redundant_motifs exampleMapA ∧
      ({1} : Finset ℕ) ≠ ({1, 2} : Finset ℕ) :=
  ⟨by decide, by decide,
    remove_redundant_no_redundant_pair exampleMapA (['A'], {1}) (by decide)
      (['A', 'B'], {1, 2}) (by decide) (by decide) (by decide)⟩

/-- C10. Implicit invariant of redundancy reduction: the output map is a
restriction of the input map: every retained entry (motif together with its
unmodified support set) is an entry of the input, so no motif is added, no
support set is modified, and no motif absent from the input is retained. -/
theorem remove_redundant_restriction (l : MotifMap ι) :
    ∀ p ∈ remove_redundant_motifs l, p ∈ l :=
  remove_redundant_subset l

/-- Witness for C10. -/
theorem remove_redundant_restriction_witness :
    (['A'], ({1} : Finset ℕ)) ∈ exampleMapB :=
  remove_redundant_restriction exampleMapB (['A'], {1}) (by decide)

lemma acceptLoop_append (acc xs ys : MotifMap ι) :
    acceptLoop acc (xs ++ ys) = acceptLoop (acceptLoop acc xs) ys := by
  induction xs generalizing acc with
  | nil => simp [acceptLoop]
  | cons m xs ih =>
    by_cases hred : isRedundantWith m acc = true <;>
      simp [acceptLoop, hred, ih]

lemma isRedundantWith_congr {m : Motif × Finset ι} {acc1 acc2 : MotifMap ι}
    (h : acc1.toFinset = acc2.toFinset) :
    isRedundantWith m acc1 = isRedundantWith m acc2 := by
  apply bool_eq_of_iff
  rw [isRedundantWith_iff, isRedundantWith_iff]
  constructor
  · rintro ⟨e, he, hi⟩
    exact ⟨e, List.mem_toFinset.mp (h ▸ List.mem_toFinset.mpr he), hi⟩
  · rintro ⟨e, he, hi⟩
    exact ⟨e, List.mem_toFinset.mp (h.symm ▸ List.mem_toFinset.mpr he), hi⟩

lemma acceptLoop_const_len (k : ℕ) :
    ∀ (g acc : MotifMap ι), (∀ e ∈ g, e.1.length = k) → (g.map Prod.fst).Nodup →
      acceptLoop acc g = acc ++ g.filter fun m => !isRedundantWith m acc := by
  intro g
  induction g with
  | nil =>
    intro acc _ _
    simp [acceptLoop]
  | cons m g ih =>
    intro acc hlen hnd
    rw [List.map_cons, List.nodup_cons] at hnd
    by_cases hred : isRedundantWith m acc = true
    · rw [show acceptLoop acc (m :: g) = acceptLoop acc g from by simp [acceptLoop, hred]]
      rw [ih acc (fun e he => hlen e (List.mem_cons_of_mem m he)) hnd.2]
      rw [List.filter_cons_of_neg (by simp [hred])]
    · rw [show acceptLoop acc (m :: g) = acceptLoop (acc ++ [m]) g from by
        simp [acceptLoop, hred]]
      rw [ih (acc ++ [m]) (fun e he => hlen e (List.mem_cons_of_mem m he)) hnd.2]
      have hfil : (g.filter fun e => !isRedundantWith e (acc ++ [m])) =
          g.filter fun e => !isRedundantWith e acc := by
        apply List.filter_congr
        intro e he
        have h1 : isRedundantWith e (acc ++ [m]) = isRedundantWith e acc := by
          apply bool_eq_of_iff
          rw [isRedundantWith_iff, isRedundantWith_iff]
          constructor
          · rintro ⟨x, hx, hinf, hs⟩
            rcases List.mem_append.mp hx with hx1 | hx1
            · exact ⟨x, hx1, hinf, hs⟩
            · have hxm : x = m := by simpa using hx1
              have hlx : e.1.length = x.1.length := by
                rw [hxm, hlen m (List.mem_cons_self m g),
                  hlen e (List.mem_cons_of_mem m he)]
              have hex : e.1 = m.1 := by
                rw [← hxm]
                exact List.IsInfix.eq_of_length hinf hlx
              exact absurd (List.mem_map.mpr ⟨e, he, hex⟩) hnd.1
          · rintro ⟨x, hx, hinf, hs⟩
            exact ⟨x, List.mem_append.mpr (Or.inl hx), hinf, hs⟩
        rw [h1]
      rw [hfil, List.filter_cons_of_pos (by simp [hred]), List.append_assoc,
        List.singleton_append]

lemma acceptLoop_flatMap_perm (l1 l2 : MotifMap ι) (hperm : List.Perm l1 l2)
    (hnd : (l1.map Prod.fst).Nodup) :
    ∀ (ks : List ℕ) (acc1 acc2 : MotifMap ι), acc1.toFinset = acc2.toFinset →
      (acceptLoop acc1 (ks.flatMap (lengthGroup l1))).toFinset =
        (acceptLoop acc2 (ks.flatMap (lengthGroup l2))).toFinset := by
  intro ks
  induction ks with
  | nil =>
    intro acc1 acc2 h
    simpa [acceptLoop] using h
  | cons k ks ih =>
    intro acc1 acc2 hacc
    rw [List.flatMap_cons, List.flatMap_cons, acceptLoop_append, acceptLoop_append]
    apply ih
    have hg1len : ∀ e ∈ lengthGroup l1 k, e.1.length = k := fun e he => lengthGroup_length he
    have hg2len : ∀ e ∈ lengthGroup l2 k, e.1.length = k := fun e he => lengthGroup_length he
    have hnd2 : (l2.map Prod.fst).Nodup := ((hperm.map Prod.fst).nodup_iff).mp hnd
    have hnd1g : ((lengthGroup l1 k).map Prod.fst).Nodup :=
      hnd.sublist ((List.filter_sublist l1).map Prod.fst)
    have hnd2g : ((lengthGroup l2 k).map Prod.fst).Nodup :=
      hnd2.sublist ((List.filter_sublist l2).map Prod.fst)
    rw [acceptLoop_const_len k (lengthGroup l1 k) acc1 hg1len hnd1g,
      acceptLoop_const_len k (lengthGroup l2 k) acc2 hg2len hnd2g]
    rw [List.toFinset_append, List.toFinset_append, hacc]
    congr 1
    have hfc : ((lengthGroup l2 k).filter fun m => !isRedundantWith m acc2) =
        (lengthGroup l2 k).filter fun m => !isRedundantWith m acc1 := by
      apply List.filter_congr
      intro e he
      rw [isRedundantWith_congr hacc]
    rw [hfc]
    exact List.toFinset_eq_of_perm _ _ ((hperm.filter _).filter _)

lemma lengthsDesc_perm_eq (l1 l2 : MotifMap ι) (hperm : List.Perm l1 l2) :
    lengthsDesc l1 = lengthsDesc l2 := by
  have h1 : List.Perm (lengthsDesc l1) (lengthsDesc l2) :=
    ((List.perm_insertionSort _ _).trans ((hperm.map _).dedup)).trans
      (List.perm_insertionSort _ _).symm
  exact List.eq_of_perm_of_sorted h1 (lengthsDesc_sorted l1) (lengthsDesc_sorted l2)

/-- Counterexample for C3: the code's traversal (and hence the association
list it returns, whose order is the insertion order of the Python dict) is not
the spec's lexicographic-within-length-group traversal.  On a map whose single
length group arrives in non-lexicographic container order, the two traversals
return differently ordered results. -/
theorem remove_redundant_not_lex_traversal :
    remove_redundant_motifs exampleMapC ≠ remove_redundant_motifs_lex exampleMapC := by
  decide

/-- C3 (amended).  Determinism of redundancy reduction: the set of motifs
retained (with their support sets) is a function of the input map alone.  The
code traverses each length group in container iteration order, not after a
lexicographic sort as the spec prescribes; the retained set is nevertheless
invariant under any permutation of the underlying container, because equal
length motifs never eliminate one another. -/
theorem remove_redundant_deterministic (l1 l2 : MotifMap ι)
    (hperm : List.Perm l1 l2) (hnd : (l1.map Prod.fst).Nodup) :
    (remove_redundant_motifs l1).toFinset = (remove_redundant_motifs l2).toFinset := by
  rw [remove_redundant_motifs, remove_redundant_motifs, processOrder, processOrder,
    lengthsDesc_perm_eq l1 l2 hperm]
  exact acceptLoop_flatMap_perm l1 l2 hperm hnd (lengthsDesc l2) [] [] rfl

/-- Witness for C3: the two container orders of the same two-entry map retain
the same motif set. -/
theorem remove_redundant_deterministic_witness :
    (remove_redundant_motifs exampleMapC).toFinset =
      (remove_redundant_motifs exampleMapD).toFinset :=
  remove_redundant_deterministic exampleMapC exampleMapD (by decide) (by decide)

lemma filter_eq_append_of_sorted {l : MotifMap ι} {k : ℕ}
    (hs : List.Pairwise (fun a b => b.1.length ≤ a.1.length) l)
    (hk : ∀ x ∈ l, x.1.length ≤ k) :
    (l.filter fun p => decide (p.1.length = k)) ++
      (l.filter fun p => !decide (p.1.length = k)) = l := by
  induction l with
  | nil => simp
  | cons p l ih =>
    rw [List.pairwise_cons] at hs
    by_cases hp : p.1.length = k
    · rw [List.filter_cons_of_pos (by simp [hp]), List.filter_cons_of_neg (by simp [hp]),
        List.cons_append, ih hs.2 fun x hx => hk x (List.mem_cons_of_mem p hx)]
    · have hlt : p.1.length < k := lt_of_le_of_ne (hk p (List.mem_cons_self p l)) hp
      have hall : ∀ x ∈ l, x.1.length ≠ k := fun x hx =>
        Nat.ne_of_lt (lt_of_le_of_lt (hs.1 x hx) hlt)
      have h1 : ((p :: l).filter fun q => decide (q.1.length = k)) = [] := by
        rw [List.filter_eq_nil_iff]
        intro a ha
        rcases List.mem_cons.mp ha with rfl | ha
        · simp [hp]
        · simp [hall a ha]
      have h2 : ((p :: l).filter fun q => !decide (q.1.length = k)) = p :: l := by
        rw [List.filter_eq_self]
        intro a ha
        rcases List.mem_cons.mp ha with rfl | ha
        · simp [hp]
        · simp [hall a ha]
      rw [h1, h2, List.nil_append]

lemma flatMap_groups_eq_self :
    ∀ (ks : List ℕ) (l : MotifMap ι), List.Sorted (· ≥ ·) ks → ks.Nodup →
      List.Pairwise (fun a b => b.1.length ≤ a.1.length) l →
      (∀ x ∈ l, x.1.length ∈ ks) →
      ks.flatMap (lengthGroup l) = l := by
  intro ks
  induction ks with
  | nil =>
    intro l _ _ _ hmem
    cases l with
    | nil => simp
    | cons p l => exact absurd (hmem p (List.mem_cons_self p l)) (by simp)
  | cons k ks ih =>
    intro l hs hnd hl hmem
    rw [List.sorted_cons] at hs
    rw [List.nodup_cons] at hnd
    have hk : ∀ x ∈ l, x.1.length ≤ k := by
      intro x hx
      rcases List.mem_cons.mp (hmem x hx) with h | h
      · exact le_of_eq h
      · exact hs.1 _ h
    have hsub : ∀ x ∈ l.filter fun p => !decide (p.1.length = k), x.1.length ∈ ks := by
      intro x hx
      have hx' := List.mem_filter.mp hx
      have hxk : x.1.length ≠ k := by simpa using hx'.2
      rcases List.mem_cons.mp (hmem x hx'.1) with h | h
      · exact absurd h hxk
      · exact h
    rw [List.flatMap_cons, flatMap_lengthGroup_filter hnd.1,
      ih (l.filter fun p => !decide (p.1.length = k)) hs.2 hnd.2
        (hl.sublist (List.filter_sublist l)) hsub]
    exact filter_eq_append_of_sorted hl hk

lemma processOrder_eq_self {l : MotifMap ι}
    (hl : List.Pairwise (fun a b => b.1.length ≤ a.1.length) l) :
    processOrder l = l := by
  apply flatMap_groups_eq_self _ l (lengthsDesc_sorted l) (nodup_lengthsDesc l) hl
  intro x hx
  exact mem_lengthsDesc.mpr (List.mem_map.mpr ⟨x, hx, rfl⟩)

lemma remove_redundant_sorted (l : MotifMap ι) :
    List.Pairwise (fun a b => b.1.length ≤ a.1.length) (remove_redundant_motifs l) := by
  obtain ⟨t, ht, hsub⟩ := acceptLoop_sublist_decomp (processOrder l) []
  rw [remove_redundant_motifs, ht, List.nil_append]
  exact (processOrder_sorted l).sublist hsub

lemma remove_redundant_keys_nodup (l : MotifMap ι)
    (hnd : (l.map Prod.fst).Nodup) :
    ((remove_redundant_motifs l).map Prod.fst).Nodup := by
  obtain ⟨t, ht, hsub⟩ := acceptLoop_sublist_decomp (processOrder l) []
  rw [remove_redundant_motifs, ht, List.nil_append]
  have hnd' : ((processOrder l).map Prod.fst).Nodup :=
    (((processOrder_perm l).map Prod.fst).nodup_iff).mpr hnd
  exact hnd'.sublist (hsub.map Prod.fst)

lemma acceptLoop_eq_append_of_no_red :
    ∀ (ord acc : MotifMap ι), ord.Nodup →
      (∀ m ∈ ord, ∀ e ∈ acc, ¬(m.1 <:+: e.1 ∧ m.2 = e.2)) →
      (∀ m ∈ ord, ∀ e ∈ ord, m ≠ e → ¬(m.1 <:+: e.1 ∧ m.2 = e.2)) →
      acceptLoop acc ord = acc ++ ord := by
  intro ord
  induction ord with
  | nil =>
    intro acc _ _ _
    simp [acceptLoop]
  | cons m rest ih =>
    intro acc hnd h1 h2
    rw [List.nodup_cons] at hnd
    have hm : ¬isRedundantWith m acc = true := by
      intro hred
      obtain ⟨e, he, hinf, hs⟩ := isRedundantWith_iff.mp hred
      exact h1 m (List.mem_cons_self m rest) e he ⟨hinf, hs⟩
    have hA : ∀ m' ∈ rest, ∀ e ∈ acc ++ [m], ¬(m'.1 <:+: e.1 ∧ m'.2 = e.2) := by
      intro m' hm' e he
      rcases List.mem_append.mp he with he1 | he1
      · exact h1 m' (List.mem_cons_of_mem m hm') e he1
      · have hem : e = m := by simpa using he1
        rw [hem]
        exact h2 m' (List.mem_cons_of_mem m hm') m (List.mem_cons_self m rest)
          fun h => hnd.1 (h ▸ hm')
    have hB : ∀ m' ∈ rest, ∀ e ∈ rest, m' ≠ e → ¬(m'.1 <:+: e.1 ∧ m'.2 = e.2) :=
      fun m' hm' e he hne =>
        h2 m' (List.mem_cons_of_mem m hm') e (List.mem_cons_of_mem m he) hne
    rw [show acceptLoop acc (m :: rest) = acceptLoop (acc ++ [m]) rest from by
      simp [acceptLoop, hm]]
    rw [ih (acc ++ [m]) hnd.2 hA hB, List.append_assoc, List.singleton_append]

/-- C4. Idempotence of redundancy reduction: applying
`_remove_redundant_motifs` to its own output returns that output unchanged
(the same motifs with the same support sets; in fact the same association
list). -/
theorem remove_redundant_idempotent (l : MotifMap ι)
    (hnd : (l.map Prod.fst).Nodup) :
    remove_redundant_motifs (remove_redundant_motifs l) = remove_redundant_motifs l := by
  have hkeys : ((remove_redundant_motifs l).map Prod.fst).Nodup :=
    remove_redundant_keys_nodup l hnd
  have hlist : (remove_redundant_motifs l).Nodup := hkeys.of_map
  have hinj : ∀ p ∈ remove_redundant_motifs l, ∀ q ∈ remove_redundant_motifs l,
      p.1 = q.1 → p = q :=
    fun p hp q hq h => List.inj_on_of_nodup_map hkeys hp hq h
  have hnored : ∀ m ∈ remove_redundant_motifs l, ∀ e ∈ remove_redundant_motifs l,
      m ≠ e → ¬(m.1 <:+: e.1 ∧ m.2 = e.2) := by
    intro m hm e he hne hcon
    by_cases hkey : m.1 = e.1
    · exact hne (hinj m hm e he hkey)
    · exact remove_redundant_pairprop l m hm e he hkey hcon.1 hcon.2
  rw [show remove_redundant_motifs (remove_redundant_motifs l) =
      acceptLoop [] (processOrder (remove_redundant_motifs l)) from rfl]
  rw [processOrder_eq_self (remove_redundant_sorted l)]
  rw [acceptLoop_eq_append_of_no_red (remove_redundant_motifs l) [] hlist
    (by simp) hnored]
  rw [List.nil_append]

/-- Witness for C4. -/
theorem remove_redundant_idempotent_witness :
    remove_redundant_motifs (remove_redundant_motifs exampleMapA) =
      remove_redundant_motifs exampleMapA :=
  remove_redundant_idempotent exampleMapA (by decide)

/-- C5. Raw p-value computation: in uniform mode `binomial_test` returns the
one-sided exceedance probability `P(X ≥ c)` for `X ~ Binomial(N, p_seq)`,
computed as the binomial survival function at `c - 1`, with
`p_seq = 1 - (1 - 0.25 ^ k) ^ n_positions` and
`n_positions = max 1 (random_region_length - k + 1)`. -/
theorem binomial_test_exceedance (N : ℕ) (R : ℤ) (k c : ℕ) :
    binomial_test N R k c =
      exceedanceProbability N
        (1 - (1 - (0.25 : ℚ) ^ k) ^ (max 1 (R - (k : ℤ) + 1))) c := by
  have hset : (Finset.range (N + 1)).filter (fun j : ℕ => (c : ℤ) - 1 < (j : ℤ)) =
      Finset.Icc c N := by
    ext j
    simp only [Finset.mem_filter, Finset.mem_range, Finset.mem_Icc]
    omega
  rw [exceedanceProbability, ← hset, Finset.sum_filter]
  rfl

/-- C6. Permutation-test p-value: the empirical p-value equals
`(number of null trials whose shuffled hit count reaches the observed count,
plus one) / (trials + 1)`, hence lies in `[1/(trials+1), 1]` and is never
exactly `0`. -/
theorem permutation_test_pvalue_bounds (seqs : List (ι × List Char)) (motif : Motif)
    (shuffles : List (List (List Char))) (trials : ℕ) (ht : 1 ≤ trials)
    (hlen : shuffles.length = trials) :
    permutation_test seqs motif shuffles =
      ((((shuffles.map fun pool => count_hits motif pool).filter fun cnt =>
          decide (count_hits motif (seqs.map Prod.snd) ≤ cnt)).length : ℚ) + 1) /
        ((trials : ℚ) + 1) ∧
      1 / ((trials : ℚ) + 1) ≤ permutation_test seqs motif shuffles ∧
      permutation_test seqs motif shuffles ≤ 1 ∧
      permutation_test seqs motif shuffles ≠ 0 := by
  have hden : (0 : ℚ) < (trials : ℚ) + 1 := by positivity
  have hcount : ((shuffles.map fun pool => count_hits motif pool).filter fun cnt =>
      decide (count_hits motif (seqs.map Prod.snd) ≤ cnt)).length ≤ trials := by
    calc ((shuffles.map fun pool => count_hits motif pool).filter fun cnt =>
          decide (count_hits motif (seqs.map Prod.snd) ≤ cnt)).length
        ≤ (shuffles.map fun pool => count_hits motif pool).length :=
          List.length_filter_le _ _
      _ = trials := by rw [List.length_map, hlen]
  have heq : permutation_test seqs motif shuffles =
      ((((shuffles.map fun pool => count_hits motif pool).filter fun cnt =>
          decide (count_hits motif (seqs.map Prod.snd) ≤ cnt)).length : ℚ) + 1) /
        ((trials : ℚ) + 1) := by
    simp only [permutation_test]
    rw [hlen]
  have hq0 : (0 : ℚ) ≤ ((((shuffles.map fun pool => count_hits motif pool).filter
      fun cnt => decide (count_hits motif (seqs.map Prod.snd) ≤ cnt)).length : ℚ)) := by
    positivity
  have hqt : ((((shuffles.map fun pool => count_hits motif pool).filter
      fun cnt => decide (count_hits motif (seqs.map Prod.snd) ≤ cnt)).length : ℚ)) ≤
      (trials : ℚ) := by
    exact_mod_cast hcount
  refine ⟨heq, ?_, ?_, ?_⟩
  · rw [heq, div_le_div_iff₀ hden hden]
    nlinarith
  · rw [heq, div_le_one hden]
    linarith
  · rw [heq]
    apply ne_of_gt
    apply div_pos _ hden
    linarith

/-- Witness for C6: one trial on a one-sequence pool. -/
theorem permutation_test_pvalue_bounds_witness :
    (1 : ℚ) / ((1 : ℚ) + 1) ≤ permutation_test [((0 : ℕ), ['A'])] ['A'] [[['A']]] ∧
      permutation_test [((0 : ℕ), ['A'])] ['A'] [[['A']]] ≠ 0 :=
  ⟨(permutation_test_pvalue_bounds [((0 : ℕ), ['A'])] ['A'] [[['A']]] 1
      (by decide) (by decide)).2.1,
    (permutation_test_pvalue_bounds [((0 : ℕ), ['A'])] ['A'] [[['A']]] 1
      (by decide) (by decide)).2.2.2⟩

/-- C7 (evaluating the code at the failing input): with `N = 0` sequences and
a non-empty motif table the statistical stage raises no error at all:
`StatisticalAnalyzer.__init__` performs no validation, and for a motif row of
length 5 and observed count 2 the enrichment computation silently produces a
p-value of `0`, an expected count of `0`, and an infinite fold enrichment;
no "invalid configuration" failure exists in `src/statistics_module.py`. -/
theorem zero_sequences_no_error :
    binomial_test 0 20 5 2 = 0 ∧ expected_count 0 20 5 = 0 ∧
      fold_enrichment 2 (expected_count 0 20 5) = ⊤ := by
  have h2 : expected_count 0 20 5 = 0 := by
    simp [expected_count]
  refine ⟨?_, h2, ?_⟩
  · norm_num [binomial_test, binomSf]
  · rw [h2, fold_enrichment]
    norm_num

lemma bh_adjust_pair (p : ℚ) (hp0 : 0 ≤ p) (hp1 : p ≤ 1) :
    bh_adjust [p, p] = [p, p] := by
  have hsort : List.insertionSort (fun a b : ℕ × ℚ => a.2 ≤ b.2) [(0, p), (1, p)] =
      [(0, p), (1, p)] := by
    simp [List.insertionSort, List.orderedInsert]
  simp only [bh_adjust]
  rw [show ([p, p]).enum = [((0 : ℕ), p), (1, p)] from rfl, hsort]
  norm_num
  rw [show ([((0 : ℕ), p), (1, p)]).enum = [((0 : ℕ), ((0 : ℕ), p)), (1, (1, p))] from rfl]
  simp only [List.map_cons, List.map_nil, Function.comp_apply, runningMinRight]
  norm_num
  rw [show List.range 2 = [0, 1] from rfl]
  simp only [List.map_cons, List.map_nil, List.find?, decide_True, decide_False]
  norm_num
  have hp2 : (1 : ℚ) ⊓ p = p := min_eq_right hp1
  rw [hp2]
  rw [min_eq_right (le_min hp1 (by linarith))]
  exact ⟨rfl, hp1⟩

lemma binomSf_nonneg (x : ℤ) (n : ℕ) (p : ℚ) (hp0 : 0 ≤ p) (hp1 : p ≤ 1) :
    0 ≤ binomSf x n p := by
  apply Finset.sum_nonneg
  intro j hj
  by_cases h : x < (j : ℤ)
  · rw [if_pos h]
    have h1 : (0 : ℚ) ≤ 1 - p := by linarith
    positivity
  · rw [if_neg h]

lemma binomSf_le_one (x : ℤ) (n : ℕ) (p : ℚ) (hp0 : 0 ≤ p) (hp1 : p ≤ 1) :
    binomSf x n p ≤ 1 := by
  have h1 : (0 : ℚ) ≤ 1 - p := by linarith
  have h := add_pow p (1 - p) n
  rw [show p + (1 - p) = (1 : ℚ) by ring, one_pow] at h
  calc binomSf x n p
      ≤ ∑ j ∈ Finset.range (n + 1), (n.choose j : ℚ) * p ^ j * (1 - p) ^ (n - j) := by
        rw [binomSf]
        apply Finset.sum_le_sum
        intro j hj
        by_cases hc : x < (j : ℤ)
        · rw [if_pos hc]
        · rw [if_neg hc]
          positivity
    _ = ∑ j ∈ Finset.range (n + 1), p ^ j * (1 - p) ^ (n - j) * (n.choose j : ℚ) := by
        apply Finset.sum_congr rfl
        intro j hj
        ring
    _ = 1 := h.symm

lemma p_seq_example_bounds : 0 ≤ p_in_sequence 20 5 ∧ p_in_sequence 20 5 ≤ 1 := by
  constructor <;>
    norm_num [p_in_sequence, calculate_motif_probability, calculate_positions_per_sequence]

/-- C8 (evaluating the code at the failing input): two distinct motifs with
the same length and observed count receive exactly equal FDR-adjusted
p-values, so the single sort key used by `sort_values('FDR')` cannot
distinguish them; the relative order of the two rows is decided by the
unspecified tie behaviour of pandas' default (unstable) quicksort, not by the
motif strings. -/
theorem calculate_enrichment_fdr_tie :
    (calculate_enrichment_rows 3 20
        [(['A','A','A','A','A'], 5, 2), (['C','C','C','C','C'], 5, 2)]).map Prod.snd =
      [binomial_test 3 20 5 2, binomial_test 3 20 5 2] ∧
    (calculate_enrichment_rows 3 20
        [(['A','A','A','A','A'], 5, 2), (['C','C','C','C','C'], 5, 2)]).map Prod.fst =
      [['A','A','A','A','A'], ['C','C','C','C','C']] := by
  have hb := p_seq_example_bounds
  have hP0 : 0 ≤ binomial_test 3 20 5 2 := binomSf_nonneg _ _ _ hb.1 hb.2
  have hP1 : binomial_test 3 20 5 2 ≤ 1 := binomSf_le_one _ _ _ hb.1 hb.2
  have hbh := bh_adjust_pair (binomial_test 3 20 5 2) hP0 hP1
  have hps : ([(['A','A','A','A','A'], 5, 2), (['C','C','C','C','C'], 5, 2)]).map
      (fun r : Motif × ℕ × ℕ => binomial_test 3 20 r.2.1 r.2.2) =
      [binomial_test 3 20 5 2, binomial_test 3 20 5 2] := rfl
  constructor
  · simp only [calculate_enrichment_rows]
    rw [hps, hbh]
    rfl
  · simp only [calculate_enrichment_rows]
    rw [hps, hbh]
    rfl

/-- C9. Implicit frame property: the statistical analyzer operates on a
private copy of the motif table taken at construction
(`self.motif_df = motif_df.copy()`), so running `calculate_enrichment` and
then `adjust_for_gc_bias` leaves the caller's original DataFrame unchanged -
every added column, re-sort and re-assignment touches only `self.motif_df`. -/
theorem statistical_analyzer_frame (df : List ERow) (seqs : List (ι × List Char))
    (R : ℤ) :
    (calculate_enrichment_heap (statisticalAnalyzer_init df seqs R)).caller_df = df ∧
      (adjust_for_gc_bias_heap (calculate_enrichment_heap
        (statisticalAnalyzer_init df seqs R))).caller_df = df :=
  ⟨rfl, rfl⟩
